import Mathlib

/-!
Verification of the `parallels` core (process-orchestration TUI dashboard)
against its natural-language specification.

The Rust sources are shallowly embedded:
* strings are `List Char` (Rust `String`/`str` is valid UTF-8, so a list of
  codepoints plus the UTF-8 size function `Char.utf8Size` recovers all byte
  offsets that the code manipulates; a byte-level substring match of one
  valid UTF-8 string inside another always falls on codepoint boundaries,
  so Rust `str::find` is exactly a codepoint-level prefix scan);
* `VecDeque<OutputLine>` is a `List`;
* `HashMap<usize, Child>` is a function `Nat → Option ProcHandle`;
* the async effects of `App` (killpg / wait / spawn / channel send) are
  recorded as an explicit action trace so that ordering claims can be stated.
-/

namespace Parallels

/-- Byte length of a character list under UTF-8, mirroring Rust `str::len`. -/
def utf8Len (s : List Char) : Nat :=
  (s.map Char.utf8Size).sum

/-- Byte offset of the `i`-th character of `s`, mirroring the byte indices
Rust's `str::find` reports on valid UTF-8. -/
def byteOfs (s : List Char) (i : Nat) : Nat :=
  utf8Len (s.take i)

/-- The case primitives `SearchState::search` links against: Rust's
`char::is_uppercase` (searcher.rs:60) and `str::to_lowercase`
(searcher.rs:80-81), both backed by the Unicode tables shipped with the
standard library.  Those tables are not re-derived here; instead the
embedding is parameterized by them, and every general theorem below is
proved for ALL implementations — in particular for the genuine Unicode
one.  `lowerStr` is the string-level lowering, so even context-sensitive
mappings (the Greek final-sigma rule) are within the parameter space. -/
structure CaseOps where
  isUpper : Char → Bool
  lowerStr : List Char → List Char

/-- A concrete instantiation of the case primitives that agrees with
Rust's Unicode tables on every character appearing in the concrete
examples below: ASCII letters are handled algorithmically; `İ` (U+0130)
lowercases to `i` followed by combining dot above (U+0069 U+0307 — the
byte-length-changing mapping from Unicode's SpecialCasing, and the example
in Rust's own `to_lowercase` documentation); `Ä` (U+00C4) lowercases to
`ä` (U+00E4); `İ` and `Ä` are uppercase; the CJK and kana characters of
the examples have no case mapping. -/
def unicodeCaseOps : CaseOps :=
  { isUpper := fun c => c.isUpper || c = 'İ' || c = 'Ä'
    lowerStr := fun s => s.flatMap fun c =>
      if c = 'İ' then ['i', '\u0307']
      else if c = 'Ä' then ['ä']
      else [c.toLower] }

/-! ## `src/buffer/output.rs` -/

/-- `OutputKind` from `src/buffer/output.rs`. -/
inductive OutputKind where
  | Stdout
  | Stderr
deriving DecidableEq, Repr

/-- `OutputLine` from `src/buffer/output.rs`: an output kind plus the
pre-parsed styled spans.  Only the textual content of each span is relevant
to any claim below (styles never are), so a span is modelled by its text. -/
structure OutputLine where
  kind : OutputKind
  spans : List (List Char)
deriving DecidableEq, Repr

/-- `OutputLine::plain`: concatenation of the span texts. -/
def OutputLine.plain (l : OutputLine) : List Char :=
  l.spans.flatten

/-- `OutputLine::new` for content with no ANSI escape sequences: the
`ansi_to_tui` parse of escape-free text is a single raw span holding the
whole content (the library only splits at escape sequences). -/
def OutputLine.raw (kind : OutputKind) (content : List Char) : OutputLine :=
  { kind := kind, spans := [content] }

/-- `OutputBuffer` from `src/buffer/output.rs`: a `VecDeque<OutputLine>`
(front = oldest) plus the capacity `max_lines` (`0` = unlimited). -/
structure OutputBuffer where
  lines : List OutputLine
  max_lines : Nat
deriving Repr

namespace OutputBuffer

/-- `OutputBuffer::new`. -/
def new (max_lines : Nat) : OutputBuffer :=
  { lines := [], max_lines := max_lines }

/-- `OutputBuffer::push`: when `max_lines > 0` and the buffer is full, the
oldest (front) line is discarded before appending at the back. -/
def push (b : OutputBuffer) (line : OutputLine) : OutputBuffer :=
  if b.max_lines > 0 ∧ b.lines.length ≥ b.max_lines then
    { b with lines := b.lines.tail ++ [line] }
  else
    { b with lines := b.lines ++ [line] }

/-- `OutputBuffer::get_range`: `iter().skip(start).take(count)`. -/
def get_range (b : OutputBuffer) (start count : Nat) : List OutputLine :=
  (b.lines.drop start).take count

/-- `OutputBuffer::len`. -/
def len (b : OutputBuffer) : Nat :=
  b.lines.length

/-- `OutputBuffer::is_empty`. -/
def is_empty (b : OutputBuffer) : Bool :=
  b.lines.isEmpty

/-- Modelled from the spec: `OutputBuffer::clear` is called by `Tab::reset`
(`src/tui/tab.rs:170`) but the method itself is absent from
`src/buffer/output.rs`; the spec (§4.1) says the restart sequence leaves the
"buffer cleared", so it empties the line deque, keeping the capacity. -/
def clear (b : OutputBuffer) : OutputBuffer :=
  { b with lines := [] }

/-- Pushing a whole list of lines in order (the "sequence of push calls"
of the claims). -/
def pushAll (b : OutputBuffer) (ls : List OutputLine) : OutputBuffer :=
  ls.foldl push b

end OutputBuffer

/-! ## `src/search/searcher.rs` -/

/-- `Match` from `src/search/searcher.rs`: 0-based line number, byte offset
of the match start within the line's plain text, byte length. -/
structure Match where
  line : Nat
  start : Nat
  len : Nat
deriving DecidableEq, Repr

/-- `SearchState` from `src/search/searcher.rs`.  The `tui_input::Input`
field only contributes its text value (`query()`), so it is the text. -/
structure SearchState where
  input : List Char
  matches' : List Match
  current_index : Option Nat
deriving DecidableEq, Repr

/-- The `while let Some(pos) = ...find(pattern)` loop of
`SearchState::search`: a left-to-right scan for non-overlapping
occurrences of the pattern `q` in the scanned text, restarting each time
`q.length` characters (= `utf8Len q` bytes of the pattern) past the match
start.  The source resumes `query.len()` bytes (the ORIGINAL query's byte
length) past the match start; this coincides with resuming past the
matched pattern whenever lowering preserves the query's byte length —
true of Rust's shipped tables for every query the insensitive branch can
see, since no character without the Uppercase property has a
byte-length-changing lowercase mapping (a hypothetical violating query
would make the source slice mid-character and panic on its next
iteration, leaving no result to embed).  `ofs` is the byte offset of the
current suffix; `fuel` (initially the character count, consumed once per
character or match) only serves termination and is never exhausted for
`q ≠ []`. -/
def scanAux (q : List Char) : Nat → List Char → Nat → List Nat
  | 0, _, _ => []
  | _ + 1, [], _ => []
  | fuel + 1, c :: rest, ofs =>
    if q.isPrefixOf (c :: rest) then
      ofs :: scanAux q fuel ((c :: rest).drop q.length) (ofs + utf8Len q)
    else
      scanAux q fuel rest (ofs + c.utf8Size)

/-- Byte offsets of the non-overlapping left-to-right occurrences of `q`
in `s` (the per-line body of `SearchState::search`). -/
def scanLine (q s : List Char) : List Nat :=
  scanAux q s.length s 0

/-- One line's contribution to the match list: the case-sensitive branch
scans the plain content for the query; the case-insensitive branch scans
the lowercased content for the lowercased query — the reported offsets are
byte offsets into the text that was scanned, exactly as in the source
(`content_lower[start..].find(&query_lower)` yields offsets into
`content_lower`).  Both branches record `len` as the byte length of the
original query, exactly as the Rust code pushes `len: query.len()`. -/
def lineMatches (ops : CaseOps) (case_sensitive : Bool) (q : List Char)
    (line_idx : Nat) (content : List Char) : List Match :=
  if case_sensitive then
    (scanLine q content).map fun p => ⟨line_idx, p, utf8Len q⟩
  else
    (scanLine (ops.lowerStr q) (ops.lowerStr content)).map
      fun p => ⟨line_idx, p, utf8Len q⟩

/-- The match list computed by `SearchState::search`: smartcase selects
the branch (`case_sensitive` iff `query.chars().any(|c| c.is_uppercase())`
holds under the linked `is_uppercase`), then every buffer line is scanned
in order. -/
def searchMatches (ops : CaseOps) (q : List Char) (buffer : OutputBuffer) :
    List Match :=
  if q = [] then []
  else
    let case_sensitive := q.any ops.isUpper
    (buffer.lines.enum.map
      fun p => lineMatches ops case_sensitive q p.1 p.2.plain).flatten

/-- `SearchState::search`: sets the input to the query, replaces the match
list, and sets the current index to 0 exactly when matches exist. -/
def SearchState.search (ops : CaseOps) (q : List Char)
    (buffer : OutputBuffer) : SearchState :=
  let ms := searchMatches ops q buffer
  { input := q, matches' := ms,
    current_index := if ms.isEmpty then none else some 0 }

/-- `SearchState::next_match`: returns the reported line number and the
updated state. -/
def SearchState.next_match (st : SearchState) : Option Nat × SearchState :=
  if st.matches'.isEmpty then (none, st)
  else
    let new_index :=
      match st.current_index with
      | some i => (i + 1) % st.matches'.length
      | none => 0
    ((st.matches'[new_index]?).map Match.line,
     { st with current_index := some new_index })

/-- `SearchState::prev_match`: returns the reported line number and the
updated state. -/
def SearchState.prev_match (st : SearchState) : Option Nat × SearchState :=
  if st.matches'.isEmpty then (none, st)
  else
    let new_index :=
      match st.current_index with
      | some i => if i = 0 then st.matches'.length - 1 else i - 1
      | none => st.matches'.length - 1
    ((st.matches'[new_index]?).map Match.line,
     { st with current_index := some new_index })

/-- `SearchState::clear`: resets the input, empties the matches, unsets the
current index. -/
def SearchState.clear (_st : SearchState) : SearchState :=
  { input := [], matches' := [], current_index := none }

/-- `SearchState::clear_input`: resets only the input text. -/
def SearchState.clear_input (st : SearchState) : SearchState :=
  { st with input := [] }

/-- `q` occurs (exactly) at character index `i` of `s`. -/
def occursAt (q s : List Char) (i : Nat) : Prop :=
  q <+: s.drop i

/-- `s` matches `q` case-insensitively: the case-folded (lowercased) text
contains the case-folded query, under the same case primitives the code
links against. -/
def matchesCaseInsensitive (ops : CaseOps) (q s : List Char) : Prop :=
  ∃ i, occursAt (ops.lowerStr q) (ops.lowerStr s) i

/-- `b` is a UTF-8 codepoint boundary of `s` (in bytes). -/
def IsUtf8Boundary (s : List Char) (b : Nat) : Prop :=
  ∃ i, i ≤ s.length ∧ byteOfs s i = b


/-! ## `src/tui/tab.rs` -/

/-- `CommandStatus` from `src/tui/tab.rs`. -/
inductive CommandStatus where
  | Running
  | Finished (exit_code : Int)
  | Failed (reason : List Char)
deriving DecidableEq, Repr

/-- `MAX_TAB_NAME_LEN` from `src/tui/tab.rs`. -/
def MAX_TAB_NAME_LEN : Nat := 20

/-- `Tab` from `src/tui/tab.rs`. -/
structure Tab where
  command : List Char
  buffer : OutputBuffer
  status : CommandStatus
  scroll_offset : Nat
  horizontal_scroll : Nat
  auto_scroll : Bool
  visible_lines : Nat
deriving Repr

namespace Tab

/-- `Tab::new`. -/
def new (command : List Char) (max_buffer_lines : Nat) : Tab :=
  { command := command, buffer := OutputBuffer.new max_buffer_lines,
    status := .Running, scroll_offset := 0, horizontal_scroll := 0,
    auto_scroll := true, visible_lines := 0 }

/-- The first `n` bytes of `s`, as Rust's byte slice `&s[..n]` takes them:
`some` of the character prefix when byte index `n` is a codepoint boundary
within `s`, `none` when the slice would panic (index inside a multi-byte
character, or past the end). -/
def takeBytes? : List Char → Nat → Option (List Char)
  | _, 0 => some []
  | [], _ + 1 => none
  | c :: rest, n + 1 =>
    if c.utf8Size ≤ n + 1 then
      (takeBytes? rest (n + 1 - c.utf8Size)).map (c :: ·)
    else none

/-- `Tab::display_name`: the command itself when it is at most
`MAX_TAB_NAME_LEN` bytes, otherwise `&command[..MAX_TAB_NAME_LEN]`
followed by `"..."`; `none` models the panic of the byte slice when byte
index 20 is not a codepoint boundary. -/
def display_name (t : Tab) : Option (List Char) :=
  if utf8Len t.command ≤ MAX_TAB_NAME_LEN then some t.command
  else (takeBytes? t.command MAX_TAB_NAME_LEN).map (· ++ "...".toList)

/-- `Tab::set_status`. -/
def set_status (t : Tab) (s : CommandStatus) : Tab :=
  { t with status := s }

/-- `Tab::push_output`: push into the buffer, then `scroll_to_bottom`
(offset = `len().saturating_sub(visible_lines)`) when auto-scroll is on. -/
def push_output (t : Tab) (line : OutputLine) : Tab :=
  let t1 := { t with buffer := t.buffer.push line }
  if t1.auto_scroll then
    { t1 with scroll_offset := t1.buffer.len - t1.visible_lines }
  else t1

/-- `Tab::reset`: clear the buffer, status back to `Running`, both scroll
offsets to 0, auto-scroll re-enabled. -/
def reset (t : Tab) : Tab :=
  { t with
    buffer := t.buffer.clear
    status := .Running
    scroll_offset := 0
    horizontal_scroll := 0
    auto_scroll := true }

end Tab

/-! ## `src/event.rs`, `src/tui/tab_manager.rs` -/

/-- `AppEvent` from `src/event.rs`. -/
inductive AppEvent where
  | Output (tab_index : Nat) (line : OutputLine)
  | Exited (tab_index : Nat) (exit_code : Int)
  | Failed (tab_index : Nat) (reason : List Char)

/-- `TabManager` from `src/tui/tab_manager.rs` (the fields the claims
use). -/
structure TabManager where
  tabs : List Tab
  active_index : Nat

/-- `TabManager::new`. -/
def TabManager.new (commands : List (List Char)) (max_buffer_lines : Nat) :
    TabManager :=
  { tabs := commands.map (fun c => Tab.new c max_buffer_lines),
    active_index := 0 }

/-- `TabManager::get_tab`: `self.tabs.get(index)`. -/
def TabManager.get_tab (tm : TabManager) (index : Nat) : Option Tab :=
  tm.tabs[index]?

/-- The `if let Some(tab) = get_tab_mut(index) { f(tab) }` idiom: update
the tab in place when the index is valid, otherwise do nothing. -/
def TabManager.modify_tab (tm : TabManager) (index : Nat) (f : Tab → Tab) :
    TabManager :=
  match tm.tabs[index]? with
  | some t => { tm with tabs := tm.tabs.set index (f t) }
  | none => tm

/-! ## `src/command/runner.rs` -/

/-- A `Stdio` configuration of one stream of a spawned process. -/
inductive Stdio where
  | inherit
  | piped
  | null
deriving DecidableEq, Repr

/-- The observable configuration a `Command` builder passes to the OS at
`spawn()`: program, arguments, the three standard streams, and the
process-group request (`none` = no `process_group` call, so the child
stays in the parent's process group). -/
structure SpawnConfig where
  program : List Char
  args : List (List Char)
  stdin : Stdio
  stdout : Stdio
  stderr : Stdio
  process_group : Option Int
deriving DecidableEq, Repr

/-- The configuration built by `CommandRunner::spawn` in
`src/command/runner.rs`:
`Command::new("sh").arg("-c").arg(command).stdout(Stdio::piped())
.stderr(Stdio::piped()).spawn()`.  No `.stdin(...)` call is made, so the
child inherits stdin (the std/tokio default), and no `.process_group(...)`
call is made. -/
def commandRunnerSpawnConfig (command : List Char) : SpawnConfig :=
  { program := "sh".toList, args := ["-c".toList, command],
    stdin := .inherit, stdout := .piped, stderr := .piped,
    process_group := none }

/-- Modelled from the spec: the spawn configuration §4.1 describes —
`sh -c "<command>"` with stdin closed, stdout/stderr piped, and the child
placed in its own process group (group id = its own pid, i.e.
`process_group(0)`).  This is what the comment in `App::kill_all`
(`src/app.rs:118`, "PGID = PID because we used process_group(0)") relies
on, but the `CommandRunner::spawn` present in `src/command/runner.rs`
does not build it. -/
def specSpawnConfig (command : List Char) : SpawnConfig :=
  { program := "sh".toList, args := ["-c".toList, command],
    stdin := .null, stdout := .piped, stderr := .piped,
    process_group := some 0 }

/-! ## `src/app.rs` -/

/-- A `tokio::process::Child` as the `App` observes it: `child.id()`
returns `Some(pid)` until the process has been reaped. -/
structure ProcHandle where
  pid : Option Nat
deriving DecidableEq, Repr

/-- The side effects `App` performs on the OS and the event channel,
recorded in program order so that sequencing claims can be stated. -/
inductive SysAction where
  | killpg (pid : Nat)
  | wait (pid : Option Nat)
  | removeHandle (i : Nat)
  | resetTab (i : Nat)
  | spawnCmd (i : Nat) (cmd : List Char)
  | insertHandle (i : Nat)
  | sendFailed (i : Nat) (reason : List Char)
deriving DecidableEq, Repr

/-- `App` state: the tab registry and the `children: HashMap<usize, Child>`
map (as a function from tab index to optional handle). -/
structure App where
  tab_manager : TabManager
  children : Nat → Option ProcHandle

/-- The outcome the OS gives each `CommandRunner::spawn(tx, cmd, i)` call,
per tab index: a handle, or an error message. -/
def SpawnOracle : Type :=
  Nat → Except (List Char) ProcHandle

/-- `App::handle_app_event` from `src/app.rs`: the Dispatcher, the sole
mutator of tab state. -/
def App.handle_app_event (app : App) (e : AppEvent) : App :=
  match e with
  | .Output i line =>
    { app with
      tab_manager :=
        app.tab_manager.modify_tab i (fun t => t.push_output line) }
  | .Exited i code =>
    { app with
      tab_manager :=
        app.tab_manager.modify_tab i
          (fun t => t.set_status (.Finished code)) }
  | .Failed i reason =>
    { app with
      tab_manager :=
        app.tab_manager.modify_tab i
          (fun t => t.set_status (.Failed reason)) }

/-- One iteration of the `App::spawn_commands` loop for `(tab_index,
command)`: on success insert the handle, on failure send
`AppEvent::Failed` and register nothing. -/
def App.spawn_iter (res : SpawnOracle) (acc : App × List SysAction)
    (p : Nat × List Char) : App × List SysAction :=
  match res p.1 with
  | .ok h =>
    ({ acc.1 with
        children := fun j => if j = p.1 then some h else acc.1.children j },
     acc.2 ++ [.spawnCmd p.1 p.2, .insertHandle p.1])
  | .error e =>
    (acc.1, acc.2 ++ [.spawnCmd p.1 p.2, .sendFailed p.1 e])

/-- `App::spawn_commands` from `src/app.rs`: iterate over the tabs'
commands in order. -/
def App.spawn_commands (res : SpawnOracle) (app : App) :
    App × List SysAction :=
  ((app.tab_manager.tabs.map Tab.command).enum).foldl
    (App.spawn_iter res) (app, [])

/-- `App::restart_process` from `src/app.rs`: remove and kill/wait the old
handle if any, reset the tab, then spawn the same command, inserting the
new handle on success or sending `Failed` on error. -/
def App.restart_process (res : SpawnOracle) (app : App) (tab_index : Nat) :
    App × List SysAction :=
  let step1 : App × List SysAction :=
    match app.children tab_index with
    | some child =>
      ({ app with
          children :=
            fun j => if j = tab_index then none else app.children j },
       [SysAction.removeHandle tab_index] ++
         (match child.pid with
          | some pid => [SysAction.killpg pid]
          | none => []) ++ [SysAction.wait child.pid])
    | none => (app, [])
  let app1 := step1.1
  let app2 := { app1 with
    tab_manager := app1.tab_manager.modify_tab tab_index Tab.reset }
  let tr2 := step1.2 ++
    (match app1.tab_manager.tabs[tab_index]? with
     | some _ => [SysAction.resetTab tab_index]
     | none => [])
  match (app2.tab_manager.tabs[tab_index]?).map Tab.command with
  | some cmd =>
    (match res tab_index with
     | .ok h =>
       ({ app2 with
           children :=
             fun j => if j = tab_index then some h else app2.children j },
        tr2 ++ [.spawnCmd tab_index cmd, .insertHandle tab_index])
     | .error e =>
       (app2, tr2 ++ [.spawnCmd tab_index cmd, .sendFailed tab_index e]))
  | none => (app2, tr2)


end Parallels

/-! ## Theorems -/

namespace Parallels

@[simp] theorem utf8Len_nil : utf8Len [] = 0 := rfl

@[simp] theorem utf8Len_cons (c : Char) (s : List Char) :
    utf8Len (c :: s) = c.utf8Size + utf8Len s := by
  simp [utf8Len]

theorem utf8Len_append (s t : List Char) :
    utf8Len (s ++ t) = utf8Len s + utf8Len t := by
  induction s with
  | nil => simp
  | cons c s ih => simp [ih]; ring

theorem utf8Len_pos {s : List Char} (h : s ≠ []) : 0 < utf8Len s := by
  cases s with
  | nil => exact absurd rfl h
  | cons c t =>
    have := Char.utf8Size_pos c
    simp only [utf8Len_cons]
    omega

@[simp] theorem OutputLine.plain_raw (k : OutputKind) (c : List Char) :
    (OutputLine.raw k c).plain = c := by
  simp [OutputLine.raw, OutputLine.plain]

namespace OutputBuffer

@[simp] theorem pushAll_nil (b : OutputBuffer) : b.pushAll [] = b := rfl

@[simp] theorem pushAll_append (b : OutputBuffer) (xs ys : List OutputLine) :
    b.pushAll (xs ++ ys) = (b.pushAll xs).pushAll ys := by
  simp [pushAll]

@[simp] theorem pushAll_singleton (b : OutputBuffer) (x : OutputLine) :
    b.pushAll [x] = b.push x := rfl

@[simp] theorem max_lines_push (b : OutputBuffer) (l : OutputLine) :
    (b.push l).max_lines = b.max_lines := by
  unfold push; split <;> rfl

@[simp] theorem max_lines_pushAll (b : OutputBuffer) (ls : List OutputLine) :
    (b.pushAll ls).max_lines = b.max_lines := by
  induction ls generalizing b with
  | nil => rfl
  | cons x xs ih => simpa [pushAll, List.foldl_cons] using ih (b.push x)

theorem push_lines (b : OutputBuffer) (x : OutputLine) :
    (b.push x).lines =
      if b.max_lines > 0 ∧ b.lines.length ≥ b.max_lines
      then b.lines.tail ++ [x] else b.lines ++ [x] := by
  unfold push; split <;> rfl

/-- Characterisation of an unbounded buffer: with `max_lines = 0`, `push`
only ever appends. -/
theorem lines_pushAll_unbounded (ls : List OutputLine) (b : OutputBuffer)
    (h : b.max_lines = 0) : (b.pushAll ls).lines = b.lines ++ ls := by
  induction ls generalizing b with
  | nil => simp
  | cons x xs ih =>
    have hp : (b.push x).lines = b.lines ++ [x] := by
      unfold push
      rw [if_neg]
      simp [h]
    simp only [pushAll, List.foldl_cons]
    rw [show List.foldl push (b.push x) xs = (b.push x).pushAll xs from rfl,
        ih (b.push x) (by simp [h]), hp]
    simp

/-- Characterisation of a bounded buffer built from empty by pushes: the
lines are the most recent `m` of the pushed sequence, in push order. -/
theorem lines_pushAll_bounded (m : Nat) (hm : 0 < m) (ls : List OutputLine) :
    ((new m).pushAll ls).lines = ls.drop (ls.length - m) := by
  induction ls using List.reverseRecOn with
  | nil => simp [new]
  | append_singleton xs x ih =>
    rw [pushAll_append, pushAll_singleton, push_lines, max_lines_pushAll, ih]
    have hmnew : (new m).max_lines = m := rfl
    rw [hmnew]
    have hlen : (List.drop (xs.length - m) xs).length = min xs.length m := by
      rw [List.length_drop]; omega
    rw [hlen]
    by_cases hfull : xs.length ≥ m
    · rw [if_pos ⟨hm, by omega⟩, List.tail_drop,
        List.drop_append_of_le_length (by simp; omega)]
      congr 2
      simp
      omega
    · rw [if_neg (by omega)]
      have h1 : xs.length - m = 0 := by omega
      have h2 : xs.length + 1 - m = 0 := by omega
      simp [h1, h2]

end OutputBuffer

end Parallels

/-- **C1.** For a buffer created with `max_lines = m > 0`, after any sequence
of pushes the length is at most `m`; once more than `m` lines have been
pushed the buffer holds exactly the most recent `m` lines in push order
(oldest evicted first).  With `max_lines = 0` pushing `N` lines yields
length `N`. -/
theorem C1_ring_buffer_fifo_eviction (m : Nat) (ls : List Parallels.OutputLine) :
    (0 < m →
      ((Parallels.OutputBuffer.new m).pushAll ls).len ≤ m ∧
      ((Parallels.OutputBuffer.new m).pushAll ls).lines
        = ls.drop (ls.length - m) ∧
      (ls.length ≥ m →
        ((Parallels.OutputBuffer.new m).pushAll ls).len = m)) ∧
    ((Parallels.OutputBuffer.new 0).pushAll ls).len = ls.length := by
  constructor
  · intro hm
    have h := Parallels.OutputBuffer.lines_pushAll_bounded m hm ls
    refine ⟨?_, h, ?_⟩
    · simp [Parallels.OutputBuffer.len, h, List.length_drop]; omega
    · intro hge
      simp [Parallels.OutputBuffer.len, h, List.length_drop]; omega
  · have h := Parallels.OutputBuffer.lines_pushAll_unbounded ls
      (Parallels.OutputBuffer.new 0) rfl
    simp only [Parallels.OutputBuffer.len, h]
    simp [Parallels.OutputBuffer.new]

/-- Witness for C1 at a concrete input: capacity 2, three pushes keep the
last two lines. -/
theorem C1_ring_buffer_fifo_eviction_witness :
    ((Parallels.OutputBuffer.new 2).pushAll
        [Parallels.OutputLine.raw .Stdout ['a'],
         Parallels.OutputLine.raw .Stdout ['b'],
         Parallels.OutputLine.raw .Stdout ['c']]).lines
      = [Parallels.OutputLine.raw .Stdout ['b'],
         Parallels.OutputLine.raw .Stdout ['c']] := by
  have h := (C1_ring_buffer_fifo_eviction 2
    [Parallels.OutputLine.raw .Stdout ['a'],
     Parallels.OutputLine.raw .Stdout ['b'],
     Parallels.OutputLine.raw .Stdout ['c']]).1 (by decide)
  exact h.2.1

namespace Parallels

@[simp] theorem byteOfs_zero (s : List Char) : byteOfs s 0 = 0 := rfl

theorem byteOfs_succ_cons (c : Char) (s : List Char) (i : Nat) :
    byteOfs (c :: s) (i + 1) = c.utf8Size + byteOfs s i := by
  simp [byteOfs, List.take_succ_cons]

theorem occursAt_succ_cons (q : List Char) (c : Char) (s : List Char)
    (i : Nat) : occursAt q (c :: s) (i + 1) ↔ occursAt q s i := by
  simp [occursAt]

theorem take_eq_of_prefix {q s : List Char} (h : q <+: s) {i : Nat}
    (hi : i ≤ q.length) : s.take i = q.take i := by
  obtain ⟨t, rfl⟩ := h
  rw [List.take_append_eq_append_take]
  have : i - q.length = 0 := by omega
  simp [this]

theorem utf8Len_take_lt {q : List Char} {i : Nat} (hi : i < q.length) :
    utf8Len (q.take i) < utf8Len q := by
  conv_rhs => rw [← List.take_append_drop i q]
  rw [utf8Len_append]
  have hne : q.drop i ≠ [] := by
    intro h
    have := List.length_drop i q
    rw [h] at this
    simp at this
    omega
  have := utf8Len_pos hne
  omega

theorem byteOfs_prefix_add {q s : List Char} (h : q <+: s) (i : Nat) :
    byteOfs s (q.length + i) = utf8Len q + byteOfs (s.drop q.length) i := by
  obtain ⟨t, rfl⟩ := h
  unfold byteOfs
  rw [List.take_append_eq_append_take, List.take_of_length_le (by omega),
    utf8Len_append]
  have h1 : q.length + i - q.length = i := by omega
  have h2 : (q ++ t).drop q.length = t := by
    rw [List.drop_append_eq_append_drop]
    simp
  rw [h1, h2]

theorem occursAt_prefix_add {q s : List Char} (_h : q <+: s) (i : Nat) :
    occursAt q s (q.length + i) ↔ occursAt q (s.drop q.length) i := by
  unfold occursAt
  rw [List.drop_drop]

/-- Soundness of the scan loop: every reported byte offset is `ofs` plus
the byte offset of a character index where the pattern occurs. -/
theorem scanAux_sound (q : List Char) (fuel : Nat) :
    ∀ (s : List Char) (ofs p : Nat), p ∈ scanAux q fuel s ofs →
      ∃ i, p = ofs + byteOfs s i ∧ occursAt q s i := by
  induction fuel with
  | zero => intro s ofs p h; simp [scanAux] at h
  | succ fuel ih =>
    intro s ofs p h
    cases s with
    | nil => simp [scanAux] at h
    | cons c rest =>
      rw [scanAux] at h
      split at h
      case isTrue hq =>
        have hpre : q <+: c :: rest := List.isPrefixOf_iff_prefix.mp hq
        rcases List.mem_cons.mp h with rfl | h'
        · exact ⟨0, by simp, by simpa [occursAt] using hpre⟩
        · obtain ⟨i, hpi, hocc⟩ := ih _ _ _ h'
          refine ⟨q.length + i, ?_, (occursAt_prefix_add hpre i).mpr hocc⟩
          rw [byteOfs_prefix_add hpre i, hpi]
          omega
      case isFalse hq =>
        obtain ⟨i, hpi, hocc⟩ := ih _ _ _ h
        refine ⟨i + 1, ?_, (occursAt_succ_cons q c rest i).mpr hocc⟩
        rw [byteOfs_succ_cons, hpi]
        omega

/-- Completeness of the scan loop: every occurrence of the pattern is
covered by a reported match (it starts inside the half-open byte window of
some reported occurrence; in particular an occurrence disjoint from all
reported windows would itself have been reported). -/
theorem scanAux_complete (q : List Char) (hq : q ≠ []) (fuel : Nat) :
    ∀ (s : List Char) (ofs i : Nat), s.length ≤ fuel → occursAt q s i →
      ∃ p ∈ scanAux q fuel s ofs,
        p ≤ ofs + byteOfs s i ∧ ofs + byteOfs s i < p + utf8Len q := by
  induction fuel with
  | zero =>
    intro s ofs i hf hocc
    have hs : s = [] := List.length_eq_zero.mp (Nat.le_zero.mp hf)
    subst hs
    exact absurd (List.prefix_nil.mp (by simpa [occursAt] using hocc)) hq
  | succ fuel ih =>
    intro s ofs i hf hocc
    cases s with
    | nil =>
      exact absurd (List.prefix_nil.mp (by simpa [occursAt] using hocc)) hq
    | cons c rest =>
      rw [scanAux]
      by_cases hpre : q.isPrefixOf (c :: rest)
      · rw [if_pos hpre]
        have hpre' : q <+: c :: rest := List.isPrefixOf_iff_prefix.mp hpre
        by_cases hi : i < q.length
        · refine ⟨ofs, List.mem_cons_self _ _, by omega, ?_⟩
          have ht : (c :: rest).take i = q.take i :=
            take_eq_of_prefix hpre' (by omega)
          have : byteOfs (c :: rest) i < utf8Len q := by
            unfold byteOfs
            rw [ht]
            exact utf8Len_take_lt hi
          omega
        · obtain ⟨i', rfl⟩ : ∃ i', i = q.length + i' :=
            ⟨i - q.length, by omega⟩
          have hocc' := (occursAt_prefix_add hpre' i').mp hocc
          obtain ⟨p, hp, h1, h2⟩ := ih ((c :: rest).drop q.length)
            (ofs + utf8Len q) i'
            (by
              have h1 : 0 < q.length := List.length_pos.mpr hq
              rw [List.length_drop]
              simp only [List.length_cons] at hf ⊢
              omega)
            hocc'
          refine ⟨p, List.mem_cons_of_mem _ hp, ?_, ?_⟩ <;>
            rw [byteOfs_prefix_add hpre' i'] <;> omega
      · rw [if_neg hpre]
        cases i with
        | zero =>
          exact absurd (List.isPrefixOf_iff_prefix.mpr
            (by simpa [occursAt] using hocc)) hpre
        | succ i' =>
          have hocc' := (occursAt_succ_cons q c rest i').mp hocc
          obtain ⟨p, hp, h1, h2⟩ := ih rest (ofs + c.utf8Size) i'
            (by simpa using Nat.succ_le_succ_iff.mp (by simpa using hf)) hocc'
          refine ⟨p, hp, ?_, ?_⟩ <;> rw [byteOfs_succ_cons] <;> omega

/-- Every reported offset is at least the running offset. -/
theorem scanAux_lower_bound (q : List Char) (fuel : Nat) (s : List Char)
    (ofs p : Nat) (h : p ∈ scanAux q fuel s ofs) : ofs ≤ p := by
  obtain ⟨i, rfl, -⟩ := scanAux_sound q fuel s ofs p h
  omega

/-- Non-overlap: consecutive reported offsets are at least `utf8Len q`
bytes apart (scanning resumes at `p + L`). -/
theorem scanAux_chain (q : List Char) (fuel : Nat) :
    ∀ (s : List Char) (ofs : Nat),
      List.Chain' (fun a b => a + utf8Len q ≤ b) (scanAux q fuel s ofs) := by
  induction fuel with
  | zero => intro s ofs; simp [scanAux]
  | succ fuel ih =>
    intro s ofs
    cases s with
    | nil => simp [scanAux]
    | cons c rest =>
      rw [scanAux]
      split
      case isTrue hq =>
        refine List.chain'_cons'.mpr ⟨?_, ih _ _⟩
        intro b hb
        have hmem : b ∈ scanAux q fuel ((c :: rest).drop q.length)
            (ofs + utf8Len q) := List.mem_of_mem_head? hb
        exact scanAux_lower_bound _ _ _ _ _ hmem
      case isFalse hq => exact ih _ _

end Parallels

namespace Parallels

theorem mem_lineMatches {ops : CaseOps} {cs : Bool} {q : List Char}
    {idx : Nat} {content : List Char} {m : Match} :
    m ∈ lineMatches ops cs q idx content ↔
      ∃ p, p ∈ scanLine (if cs then q else ops.lowerStr q)
              (if cs then content else ops.lowerStr content) ∧
        m = ⟨idx, p, utf8Len q⟩ := by
  cases cs <;> simp [lineMatches, List.mem_map, eq_comm]

theorem line_of_mem_lineMatches {ops : CaseOps} {cs : Bool} {q : List Char}
    {idx : Nat} {content : List Char} {m : Match}
    (h : m ∈ lineMatches ops cs q idx content) :
    m.line = idx := by
  obtain ⟨p, -, rfl⟩ := mem_lineMatches.mp h
  rfl

theorem mem_searchMatches {ops : CaseOps} {q : List Char}
    {buf : OutputBuffer} {m : Match} (hq : q ≠ []) :
    m ∈ searchMatches ops q buf ↔
      ∃ line, buf.lines[m.line]? = some line ∧
        m ∈ lineMatches ops (q.any ops.isUpper) q m.line line.plain := by
  unfold searchMatches
  rw [if_neg hq]
  simp only [List.mem_flatten, List.mem_map]
  constructor
  · rintro ⟨l, ⟨⟨i, line⟩, hmem, rfl⟩, hm⟩
    have hline : m.line = i := line_of_mem_lineMatches hm
    subst hline
    exact ⟨line, (List.mk_mem_enum_iff_getElem?.mp hmem), hm⟩
  · rintro ⟨line, hget, hm⟩
    exact ⟨lineMatches ops (q.any ops.isUpper) q m.line line.plain,
      ⟨(m.line, line), List.mk_mem_enum_iff_getElem?.mpr hget, rfl⟩, hm⟩

end Parallels

/-- **C8.** `clear()` empties the query and the match list and unsets the
current index; `clear_input()` empties only the query text while leaving
the match list and the current match index exactly as they were. -/
theorem C8_clear_vs_clear_input (st : Parallels.SearchState) :
    (st.clear.input = [] ∧ st.clear.matches' = [] ∧
      st.clear.current_index = none) ∧
    (st.clear_input.input = [] ∧ st.clear_input.matches' = st.matches' ∧
      st.clear_input.current_index = st.current_index) := by
  simp [Parallels.SearchState.clear, Parallels.SearchState.clear_input]

/-- **C7.** With no matches, `next_match`/`prev_match` return `None` and
leave the state unchanged; with `n > 0` matches and current index `i < n`,
`next_match` moves to `(i+1) mod n` and `prev_match` to `i-1` (wrapping to
`n-1` from `0`), each returning the line number of the new current match. -/
theorem C7_cyclic_navigation (st : Parallels.SearchState) :
    (st.matches' = [] →
      st.next_match = (none, st) ∧ st.prev_match = (none, st)) ∧
    (∀ i, st.current_index = some i → i < st.matches'.length →
      (∃ m, st.matches'[(i + 1) % st.matches'.length]? = some m ∧
        st.next_match = (some m.line,
          { st with
            current_index := some ((i + 1) % st.matches'.length) })) ∧
      (∃ m, st.matches'[if i = 0 then st.matches'.length - 1 else i - 1]?
          = some m ∧
        st.prev_match = (some m.line,
          { st with
            current_index :=
              some (if i = 0 then st.matches'.length - 1 else i - 1) }))) := by
  constructor
  · intro h
    constructor <;>
      simp [Parallels.SearchState.next_match,
        Parallels.SearchState.prev_match, h]
  · intro i hidx hlt
    have hne : st.matches'.isEmpty = false := by
      cases hm : st.matches' with
      | nil => rw [hm] at hlt; simp at hlt
      | cons a t => simp [hm]
    have hlen : 0 < st.matches'.length := by
      cases hm : st.matches' with
      | nil => rw [hm] at hlt; simp at hlt
      | cons a t => simp [hm]
    constructor
    · have hbound : (i + 1) % st.matches'.length < st.matches'.length :=
        Nat.mod_lt _ hlen
      refine ⟨st.matches'[(i + 1) % st.matches'.length],
        List.getElem?_eq_getElem hbound, ?_⟩
      simp [Parallels.SearchState.next_match, hne, hidx,
        List.getElem?_eq_getElem hbound]
    · have hbound :
          (if i = 0 then st.matches'.length - 1 else i - 1)
            < st.matches'.length := by
        split <;> omega
      refine ⟨st.matches'[if i = 0 then st.matches'.length - 1 else i - 1],
        List.getElem?_eq_getElem hbound, ?_⟩
      simp [Parallels.SearchState.prev_match, hne, hidx,
        List.getElem?_eq_getElem hbound]

/-- Witness for C7 at a concrete state: two matches, current index 0;
`next_match` goes to index 1, a second `next_match` wraps back to index 0,
and `prev_match` from index 0 wraps to the last index 1. -/
theorem C7_cyclic_navigation_witness :
    (∃ m, ([⟨0, 0, 1⟩, ⟨2, 0, 1⟩] : List Parallels.Match)[(0 + 1) % 2]?
        = some m ∧
      Parallels.SearchState.next_match ⟨['a'], [⟨0, 0, 1⟩, ⟨2, 0, 1⟩], some 0⟩
        = (some m.line, ⟨['a'], [⟨0, 0, 1⟩, ⟨2, 0, 1⟩], some ((0 + 1) % 2)⟩)) ∧
    (∃ m, ([⟨0, 0, 1⟩, ⟨2, 0, 1⟩] : List Parallels.Match)[(1 + 1) % 2]?
        = some m ∧
      Parallels.SearchState.next_match ⟨['a'], [⟨0, 0, 1⟩, ⟨2, 0, 1⟩], some 1⟩
        = (some m.line, ⟨['a'], [⟨0, 0, 1⟩, ⟨2, 0, 1⟩], some ((1 + 1) % 2)⟩)) ∧
    (∃ m, ([⟨0, 0, 1⟩, ⟨2, 0, 1⟩] : List Parallels.Match)[if 0 = 0 then 2 - 1 else 0 - 1]?
        = some m ∧
      Parallels.SearchState.prev_match ⟨['a'], [⟨0, 0, 1⟩, ⟨2, 0, 1⟩], some 0⟩
        = (some m.line, ⟨['a'], [⟨0, 0, 1⟩, ⟨2, 0, 1⟩],
            some (if 0 = 0 then 2 - 1 else 0 - 1)⟩)) :=
  ⟨((C7_cyclic_navigation ⟨['a'], [⟨0, 0, 1⟩, ⟨2, 0, 1⟩], some 0⟩).2 0 rfl
      (by decide)).1,
   ((C7_cyclic_navigation ⟨['a'], [⟨0, 0, 1⟩, ⟨2, 0, 1⟩], some 1⟩).2 1 rfl
      (by decide)).1,
   ((C7_cyclic_navigation ⟨['a'], [⟨0, 0, 1⟩, ⟨2, 0, 1⟩], some 0⟩).2 0 rfl
      (by decide)).2⟩

namespace Parallels

theorem scanLine_sound {q s : List Char} {p : Nat} (h : p ∈ scanLine q s) :
    ∃ i, p = byteOfs s i ∧ occursAt q s i := by
  obtain ⟨i, hp, hocc⟩ := scanAux_sound q s.length s 0 p h
  exact ⟨i, by omega, hocc⟩

theorem scanLine_complete {q s : List Char} (hq : q ≠ []) {i : Nat}
    (hocc : occursAt q s i) :
    ∃ p ∈ scanLine q s, p ≤ byteOfs s i ∧ byteOfs s i < p + utf8Len q := by
  obtain ⟨p, hp, h1, h2⟩ := scanAux_complete q hq s.length s 0 i le_rfl hocc
  exact ⟨p, hp, by omega, by omega⟩

/-- A line of the buffer produces at least one match exactly when the
branch-appropriate pattern occurs in the branch-appropriate text.  The
`hpat` hypothesis (the scanned pattern is non-empty) is immediate for the
case-sensitive branch and, for the insensitive branch, holds for the real
`to_lowercase` on every non-empty query (lowercasing never empties a
string). -/
theorem line_reported_iff (ops : CaseOps) (q : List Char)
    (buf : OutputBuffer) (i : Nat) (line : OutputLine) (hq : q ≠ [])
    (hline : buf.lines[i]? = some line) (cs : Bool)
    (hcs : q.any ops.isUpper = cs)
    (hpat : (if cs then q else ops.lowerStr q) ≠ []) :
    (∃ m ∈ searchMatches ops q buf, m.line = i) ↔
      ∃ j, occursAt (if cs then q else ops.lowerStr q)
        (if cs then line.plain else ops.lowerStr line.plain) j := by
  constructor
  · rintro ⟨m, hm, rfl⟩
    obtain ⟨line', hline', hmem⟩ := (mem_searchMatches hq).mp hm
    rw [hline] at hline'
    injection hline' with he
    subst he
    rw [hcs] at hmem
    obtain ⟨p, hp, -⟩ := mem_lineMatches.mp hmem
    obtain ⟨j, -, hocc⟩ := scanLine_sound hp
    exact ⟨j, hocc⟩
  · rintro ⟨j, hocc⟩
    obtain ⟨p, hp, -, -⟩ := scanLine_complete hpat hocc
    refine ⟨⟨i, p, utf8Len q⟩, ?_, rfl⟩
    refine (mem_searchMatches hq).mpr ⟨line, hline, ?_⟩
    rw [hcs]
    exact mem_lineMatches.mpr ⟨p, hp, rfl⟩

end Parallels

/-- **C4.** Smartcase, for every implementation of the case primitives
(hence for Rust's Unicode `is_uppercase`/`to_lowercase` in particular):
if the query contains no uppercase character, a line is reported among the
matches exactly when its plain text matches the query case-insensitively
(the folded text contains the folded query); if the query contains an
uppercase character, a line is reported exactly when its plain text
contains an exact case-sensitive occurrence of the query.  The
`ops.lowerStr q ≠ []` hypothesis of the insensitive clause holds for the
real `to_lowercase` on every non-empty query. -/
theorem C4_smartcase (ops : Parallels.CaseOps) (q : List Char)
    (buf : Parallels.OutputBuffer) (i : Nat)
    (line : Parallels.OutputLine) (hq : q ≠ [])
    (hline : buf.lines[i]? = some line) :
    (q.any ops.isUpper = false → ops.lowerStr q ≠ [] →
      ((∃ m ∈ Parallels.searchMatches ops q buf, m.line = i) ↔
        Parallels.matchesCaseInsensitive ops q line.plain)) ∧
    (q.any ops.isUpper = true →
      ((∃ m ∈ Parallels.searchMatches ops q buf, m.line = i) ↔
        ∃ j, Parallels.occursAt q line.plain j)) := by
  constructor
  · intro h hql
    have := Parallels.line_reported_iff ops q buf i line hq hline false h
      (by simpa using hql)
    simpa [Parallels.matchesCaseInsensitive] using this
  · intro h
    simpa using Parallels.line_reported_iff ops q buf i line hq hline true h
      (by simpa using hq)

/-- Witness for C4 at concrete inputs under `unicodeCaseOps`: against the
three lines `Hello World` / `hello world` / `HELLO WORLD`, the
all-lowercase query `hello` reports line 2 (`HELLO WORLD`) and the
capitalised query `Hello` reports line 0 (`Hello World`); and the
non-ASCII lowercase query `ä` reports the line `Ä` (its Unicode
lowercasing). -/
theorem C4_smartcase_witness :
    (∃ m ∈ Parallels.searchMatches Parallels.unicodeCaseOps "hello".toList
        ⟨[Parallels.OutputLine.raw .Stdout "Hello World".toList,
          Parallels.OutputLine.raw .Stdout "hello world".toList,
          Parallels.OutputLine.raw .Stdout "HELLO WORLD".toList], 100⟩,
      m.line = 2) ∧
    (∃ m ∈ Parallels.searchMatches Parallels.unicodeCaseOps "Hello".toList
        ⟨[Parallels.OutputLine.raw .Stdout "Hello World".toList,
          Parallels.OutputLine.raw .Stdout "hello world".toList,
          Parallels.OutputLine.raw .Stdout "HELLO WORLD".toList], 100⟩,
      m.line = 0) ∧
    (∃ m ∈ Parallels.searchMatches Parallels.unicodeCaseOps "ä".toList
        ⟨[Parallels.OutputLine.raw .Stdout "Ä".toList], 100⟩,
      m.line = 0) :=
  ⟨((C4_smartcase Parallels.unicodeCaseOps "hello".toList
      ⟨[Parallels.OutputLine.raw .Stdout "Hello World".toList,
        Parallels.OutputLine.raw .Stdout "hello world".toList,
        Parallels.OutputLine.raw .Stdout "HELLO WORLD".toList], 100⟩ 2
      (Parallels.OutputLine.raw .Stdout "HELLO WORLD".toList)
      (by decide) (by decide)).1 (by decide) (by decide)).mpr
    ⟨0, List.isPrefixOf_iff_prefix.mp (by decide)⟩,
   ((C4_smartcase Parallels.unicodeCaseOps "Hello".toList
      ⟨[Parallels.OutputLine.raw .Stdout "Hello World".toList,
        Parallels.OutputLine.raw .Stdout "hello world".toList,
        Parallels.OutputLine.raw .Stdout "HELLO WORLD".toList], 100⟩ 0
      (Parallels.OutputLine.raw .Stdout "Hello World".toList)
      (by decide) (by decide)).2 (by decide)).mpr
    ⟨0, List.isPrefixOf_iff_prefix.mp (by decide)⟩,
   ((C4_smartcase Parallels.unicodeCaseOps "ä".toList
      ⟨[Parallels.OutputLine.raw .Stdout "Ä".toList], 100⟩ 0
      (Parallels.OutputLine.raw .Stdout "Ä".toList)
      (by decide) (by decide)).1 (by decide) (by decide)).mpr
    ⟨0, List.isPrefixOf_iff_prefix.mp (by decide)⟩⟩

namespace Parallels

theorem byteOfs_add (s : List Char) (j k : Nat) :
    byteOfs s (j + k) = byteOfs s j + utf8Len ((s.drop j).take k) := by
  unfold byteOfs
  rw [List.take_add, utf8Len_append]

theorem occursAt_bounds {pat text : List Char} (hne : pat ≠ [])
    {j : Nat} (hocc : occursAt pat text j) :
    j + pat.length ≤ text.length ∧
    byteOfs text (j + pat.length) = byteOfs text j + utf8Len pat := by
  have hlen : pat.length ≤ (text.drop j).length := hocc.length_le
  rw [List.length_drop] at hlen
  have hj : j < text.length := by
    by_contra hge
    push_neg at hge
    have hdrop : text.drop j = [] := List.drop_eq_nil_of_le hge
    rw [occursAt, hdrop] at hocc
    exact hne (List.prefix_nil.mp hocc)
  refine ⟨by omega, ?_⟩
  rw [byteOfs_add]
  congr 1
  have ht : (text.drop j).take pat.length = pat :=
    (List.prefix_iff_eq_take.mp hocc).symm
  rw [ht]

end Parallels

namespace Parallels

/-- In the plain text `İa` (3 bytes), byte 3 is the end of the text, and
no occurrence of the query `a` starts there (the occurrence is at byte
2). -/
theorem no_occurrence_at_byte_three :
    ¬ ∃ j, byteOfs "İa".toList j = 3 ∧
        occursAt "a".toList "İa".toList j := by
  rintro ⟨j, hj, hocc⟩
  have h2 : 2 ≤ j := by
    by_contra hlt
    push_neg at hlt
    interval_cases j <;> revert hj <;> decide
  have hdrop : ("İa".toList).drop j = [] :=
    List.drop_eq_nil_of_le
      (by rw [show ("İa".toList).length = 2 from rfl]; omega)
  rw [occursAt, hdrop] at hocc
  exact absurd (List.prefix_nil.mp hocc) (by decide)

/-- Byte 4 is past the 3-byte plain text `İa`, so it is no codepoint
boundary of it. -/
theorem no_boundary_at_byte_four :
    ¬ IsUtf8Boundary "İa".toList 4 := by
  rintro ⟨i, hi, hb⟩
  have hi2 : i ≤ 2 := by simpa using hi
  interval_cases i <;> revert hb <;> decide

end Parallels

/-- **C5 counterexample.** The original byte-accuracy claim fails on the
program: for line `İa` and query `a`, Unicode lowercasing maps `İ` to
`i` + combining dot above (2 bytes → 3 bytes), the insensitive branch
scans the 4-byte lowered text `i̇a` and reports the match `⟨0, 3, 1⟩` —
but in the 3-byte plain text the range `3..4` ends past the text, lands
on no codepoint boundary, and starts at no occurrence of the query (whose
only occurrence is at byte 2). -/
theorem C5_byte_accurate_matches_counterexample :
    Parallels.searchMatches Parallels.unicodeCaseOps "a".toList
        ⟨[Parallels.OutputLine.raw .Stdout "İa".toList], 100⟩
      = [⟨0, 3, 1⟩] ∧
    Parallels.utf8Len "İa".toList = 3 ∧
    ¬ Parallels.IsUtf8Boundary "İa".toList (3 + 1) ∧
    ¬ ∃ j, (3 : Nat) = Parallels.byteOfs "İa".toList j ∧
        Parallels.occursAt "a".toList "İa".toList j :=
  ⟨by decide, by decide, Parallels.no_boundary_at_byte_four,
   fun ⟨j, hj, hocc⟩ =>
     Parallels.no_occurrence_at_byte_three ⟨j, hj.symm, hocc⟩⟩

/-- **C5 (amended).** For every implementation of the case primitives
(hence for Rust's Unicode tables), every match's `len` is the byte length
of the original query, and its `start` is a byte offset into the text
that was scanned: in the case-sensitive branch — where the scanned text
is the plain text itself — `start` and `start + len` fall on codepoint
boundaries of the plain text and delimit an occurrence of the query; in
the case-insensitive branch the offsets are into the lowercased plain
text, where `start` and `start` plus the lowered pattern's byte length
fall on codepoint boundaries and delimit an occurrence of the lowercased
query (they transfer to the plain text only when lowercasing preserves
byte lengths, which the counterexample shows can fail).  Searching `世界`
in `こんにちは世界` yields exactly one match with `start = 15`,
`len = 6`. -/
theorem C5_byte_accurate_matches :
    (∀ (ops : Parallels.CaseOps) (q : List Char)
      (buf : Parallels.OutputBuffer) (m : Parallels.Match),
      q ≠ [] → m ∈ Parallels.searchMatches ops q buf →
      ∃ line, buf.lines[m.line]? = some line ∧
        m.len = Parallels.utf8Len q ∧
        (q.any ops.isUpper = true →
          Parallels.IsUtf8Boundary line.plain m.start ∧
          Parallels.IsUtf8Boundary line.plain (m.start + m.len) ∧
          ∃ j, m.start = Parallels.byteOfs line.plain j ∧
            Parallels.occursAt q line.plain j) ∧
        (q.any ops.isUpper = false → ops.lowerStr q ≠ [] →
          Parallels.IsUtf8Boundary (ops.lowerStr line.plain) m.start ∧
          Parallels.IsUtf8Boundary (ops.lowerStr line.plain)
            (m.start + Parallels.utf8Len (ops.lowerStr q)) ∧
          ∃ j, m.start = Parallels.byteOfs (ops.lowerStr line.plain) j ∧
            Parallels.occursAt (ops.lowerStr q)
              (ops.lowerStr line.plain) j)) ∧
    Parallels.searchMatches Parallels.unicodeCaseOps "世界".toList
      ⟨[Parallels.OutputLine.raw .Stdout "こんにちは世界".toList], 100⟩
      = [⟨0, 15, 6⟩] := by
  constructor
  · intro ops q buf m hq hm
    obtain ⟨line, hline, hmem⟩ := (Parallels.mem_searchMatches hq).mp hm
    cases hcs : q.any ops.isUpper
    · rw [hcs] at hmem
      obtain ⟨p, hp, hmeq⟩ := Parallels.mem_lineMatches.mp hmem
      simp at hp
      have hstart : m.start = p := by rw [hmeq]
      have hlen : m.len = Parallels.utf8Len q := by rw [hmeq]
      refine ⟨line, hline, hlen, ?_, ?_⟩
      · intro h
        exact Bool.noConfusion h
      · intro _ hql
        obtain ⟨j, hpj, hocc⟩ := Parallels.scanLine_sound hp
        obtain ⟨hb1, hb2⟩ := Parallels.occursAt_bounds hql hocc
        have hql1 : 0 < (ops.lowerStr q).length := List.length_pos.mpr hql
        exact ⟨⟨j, by omega, by omega⟩,
          ⟨j + (ops.lowerStr q).length, hb1, by omega⟩,
          ⟨j, by omega, hocc⟩⟩
    · rw [hcs] at hmem
      obtain ⟨p, hp, hmeq⟩ := Parallels.mem_lineMatches.mp hmem
      simp at hp
      have hstart : m.start = p := by rw [hmeq]
      have hlen : m.len = Parallels.utf8Len q := by rw [hmeq]
      refine ⟨line, hline, hlen, ?_, ?_⟩
      · intro _
        obtain ⟨j, hpj, hocc⟩ := Parallels.scanLine_sound hp
        obtain ⟨hb1, hb2⟩ := Parallels.occursAt_bounds hq hocc
        have hq1 : 0 < q.length := List.length_pos.mpr hq
        exact ⟨⟨j, by omega, by omega⟩,
          ⟨j + q.length, hb1, by omega⟩, ⟨j, by omega, hocc⟩⟩
      · intro h
        exact Bool.noConfusion h
  · decide

/-- Witness for C5 (amended) at the spec's example under
`unicodeCaseOps`: the unique match of `世界` in `こんにちは世界`
satisfies all the byte-accuracy facts. -/
theorem C5_byte_accurate_matches_witness :
    ∃ line,
      (Parallels.OutputBuffer.mk
        [Parallels.OutputLine.raw .Stdout "こんにちは世界".toList]
        100).lines[(Parallels.Match.mk 0 15 6).line]? = some line ∧
      (Parallels.Match.mk 0 15 6).len = Parallels.utf8Len "世界".toList ∧
      (("世界".toList).any Parallels.unicodeCaseOps.isUpper = true →
        Parallels.IsUtf8Boundary line.plain
          (Parallels.Match.mk 0 15 6).start ∧
        Parallels.IsUtf8Boundary line.plain
          ((Parallels.Match.mk 0 15 6).start
            + (Parallels.Match.mk 0 15 6).len) ∧
        ∃ j, (Parallels.Match.mk 0 15 6).start
            = Parallels.byteOfs line.plain j ∧
          Parallels.occursAt "世界".toList line.plain j) ∧
      (("世界".toList).any Parallels.unicodeCaseOps.isUpper = false →
        Parallels.unicodeCaseOps.lowerStr "世界".toList ≠ [] →
        Parallels.IsUtf8Boundary
          (Parallels.unicodeCaseOps.lowerStr line.plain)
          (Parallels.Match.mk 0 15 6).start ∧
        Parallels.IsUtf8Boundary
          (Parallels.unicodeCaseOps.lowerStr line.plain)
          ((Parallels.Match.mk 0 15 6).start + Parallels.utf8Len
            (Parallels.unicodeCaseOps.lowerStr "世界".toList)) ∧
        ∃ j, (Parallels.Match.mk 0 15 6).start
            = Parallels.byteOfs
                (Parallels.unicodeCaseOps.lowerStr line.plain) j ∧
          Parallels.occursAt
            (Parallels.unicodeCaseOps.lowerStr "世界".toList)
            (Parallels.unicodeCaseOps.lowerStr line.plain) j) :=
  C5_byte_accurate_matches.1 Parallels.unicodeCaseOps "世界".toList
    ⟨[Parallels.OutputLine.raw .Stdout "こんにちは世界".toList], 100⟩
    ⟨0, 15, 6⟩ (by decide) (by decide)

namespace Parallels

theorem le_fst_of_mem_enumFrom {α : Type} :
    ∀ {l : List α} {k : Nat} {p : Nat × α}, p ∈ l.enumFrom k → k ≤ p.1 := by
  intro l
  induction l with
  | nil => intro k p h; simp at h
  | cons x xs ih =>
    intro k p h
    rw [List.enumFrom_cons] at h
    rcases List.mem_cons.mp h with rfl | h'
    · exact le_rfl
    · have := ih h'
      omega

theorem pairwise_fst_lt_enumFrom {α : Type} (l : List α) :
    ∀ n, List.Pairwise (fun p q => p.1 < q.1) (l.enumFrom n) := by
  induction l with
  | nil => intro n; simp
  | cons x xs ih =>
    intro n
    rw [List.enumFrom_cons]
    refine List.Pairwise.cons ?_ (ih (n + 1))
    intro p hp
    have := le_fst_of_mem_enumFrom hp
    omega

/-- Within one line, the reported matches are pairwise ordered with a gap
of at least the scanned pattern's byte length. -/
theorem pairwise_lineMatches (ops : CaseOps) (cs : Bool) (q : List Char)
    (i : Nat) (content : List Char) :
    List.Pairwise (fun a b : Match =>
        a.line = b.line ∧
          a.start + utf8Len (if cs then q else ops.lowerStr q) ≤ b.start)
      (lineMatches ops cs q i content) := by
  haveI : IsTrans Nat (fun a b => a + utf8Len q ≤ b) :=
    ⟨fun a b c hab hbc => by omega⟩
  haveI : IsTrans Nat (fun a b => a + utf8Len (ops.lowerStr q) ≤ b) :=
    ⟨fun a b c hab hbc => by omega⟩
  cases cs
  · have hchain := scanAux_chain (ops.lowerStr q)
      (ops.lowerStr content).length (ops.lowerStr content) 0
    have hpair := List.chain'_iff_pairwise.mp hchain
    unfold lineMatches
    simp only [Bool.false_eq_true, if_false]
    exact List.pairwise_map.mpr (hpair.imp (fun h => ⟨rfl, h⟩))
  · have hchain := scanAux_chain q content.length content 0
    have hpair := List.chain'_iff_pairwise.mp hchain
    unfold lineMatches
    simp only [if_true]
    exact List.pairwise_map.mpr (hpair.imp (fun h => ⟨rfl, h⟩))

/-- The full match list is ordered line-major (buffer order), and within a
line the reported starts are non-overlapping left-to-right. -/
theorem pairwise_searchMatches (ops : CaseOps) (q : List Char)
    (buf : OutputBuffer) (hq : q ≠ []) :
    List.Pairwise (fun a b : Match =>
      a.line < b.line ∨ (a.line = b.line ∧
        a.start + utf8Len (if q.any ops.isUpper then q else ops.lowerStr q)
          ≤ b.start))
      (searchMatches ops q buf) := by
  unfold searchMatches
  rw [if_neg hq]
  apply List.pairwise_flatten.mpr
  constructor
  · intro l hl
    obtain ⟨p, hp, rfl⟩ := List.mem_map.mp hl
    exact (pairwise_lineMatches ops _ q p.1 p.2.plain).imp
      (fun h => Or.inr h)
  · apply List.pairwise_map.mpr
    refine (pairwise_fst_lt_enumFrom buf.lines 0).imp ?_
    intro p1 p2 hlt x hx y hy
    have hx1 := line_of_mem_lineMatches hx
    have hy1 := line_of_mem_lineMatches hy
    exact Or.inl (by omega)

end Parallels

/-- **C6 counterexample.** The original "exactly the non-overlapping
occurrences of the query" claim fails on the program: for line `İa` and
query `a`, the single reported match starts at byte 3 — an offset into
the Unicode-lowered text `i̇a` — while the only occurrence of the query
in the line's plain text starts at byte 2, so the reported offset is not
an occurrence of the query in the line. -/
theorem C6_line_order_and_nonoverlap_counterexample :
    Parallels.searchMatches Parallels.unicodeCaseOps "a".toList
        ⟨[Parallels.OutputLine.raw .Stdout "İa".toList], 100⟩
      = [⟨0, 3, 1⟩] ∧
    (Parallels.byteOfs "İa".toList 1 = 2 ∧
      Parallels.occursAt "a".toList "İa".toList 1) ∧
    ¬ ∃ j, Parallels.byteOfs "İa".toList j = 3 ∧
        Parallels.occursAt "a".toList "İa".toList j :=
  ⟨by decide,
   ⟨by decide, List.isPrefixOf_iff_prefix.mp (by decide)⟩,
   Parallels.no_occurrence_at_byte_three⟩

/-- **C6 (amended).** For every implementation of the case primitives,
matches are enumerated line by line in buffer order and within each line
are exactly the non-overlapping left-to-right occurrences of the scanned
pattern in the scanned text — the query in the plain text for the
case-sensitive branch, the lowercased query in the lowercased plain text
for the case-insensitive branch (whose offsets transfer to the plain text
only when lowercasing preserves byte lengths): the list is pairwise
ordered line-major with same-line starts at least one pattern-length
apart, and every occurrence starts inside the byte window of some
reported match on that line; in `foo bar foo baz foo` the query `foo`
yields exactly the three matches at byte offsets 0, 8 and 16. -/
theorem C6_line_order_and_nonoverlap :
    (∀ (ops : Parallels.CaseOps) (q : List Char)
      (buf : Parallels.OutputBuffer), q ≠ [] →
      List.Pairwise (fun a b : Parallels.Match =>
        a.line < b.line ∨ (a.line = b.line ∧
          a.start + Parallels.utf8Len
            (if q.any ops.isUpper then q else ops.lowerStr q) ≤ b.start))
        (Parallels.searchMatches ops q buf) ∧
      (∀ (i : Nat) (line : Parallels.OutputLine),
        buf.lines[i]? = some line →
        (q.any ops.isUpper = true →
          ∀ j, Parallels.occursAt q line.plain j →
            ∃ m ∈ Parallels.searchMatches ops q buf, m.line = i ∧
              m.start ≤ Parallels.byteOfs line.plain j ∧
              Parallels.byteOfs line.plain j
                < m.start + Parallels.utf8Len q) ∧
        (q.any ops.isUpper = false → ops.lowerStr q ≠ [] →
          ∀ j, Parallels.occursAt (ops.lowerStr q)
              (ops.lowerStr line.plain) j →
            ∃ m ∈ Parallels.searchMatches ops q buf, m.line = i ∧
              m.start ≤ Parallels.byteOfs (ops.lowerStr line.plain) j ∧
              Parallels.byteOfs (ops.lowerStr line.plain) j
                < m.start + Parallels.utf8Len (ops.lowerStr q)))) ∧
    Parallels.searchMatches Parallels.unicodeCaseOps "foo".toList
      ⟨[Parallels.OutputLine.raw .Stdout "foo bar foo baz foo".toList],
        100⟩
      = [⟨0, 0, 3⟩, ⟨0, 8, 3⟩, ⟨0, 16, 3⟩] := by
  constructor
  · intro ops q buf hq
    refine ⟨Parallels.pairwise_searchMatches ops q buf hq, ?_⟩
    intro i line hline
    constructor
    · intro hcs j hocc
      obtain ⟨p, hp, hple, hplt⟩ := Parallels.scanLine_complete hq hocc
      refine ⟨⟨i, p, Parallels.utf8Len q⟩, ?_, rfl, hple, hplt⟩
      refine (Parallels.mem_searchMatches hq).mpr ⟨line, hline, ?_⟩
      rw [hcs]
      refine Parallels.mem_lineMatches.mpr ⟨p, ?_, rfl⟩
      simpa using hp
    · intro hcs hql j hocc
      obtain ⟨p, hp, hple, hplt⟩ := Parallels.scanLine_complete hql hocc
      refine ⟨⟨i, p, Parallels.utf8Len q⟩, ?_, rfl, hple, hplt⟩
      refine (Parallels.mem_searchMatches hq).mpr ⟨line, hline, ?_⟩
      rw [hcs]
      refine Parallels.mem_lineMatches.mpr ⟨p, ?_, rfl⟩
      simpa using hp
  · decide

/-- Witness for C6 (amended): applying the general part at the concrete
example yields the ordering over the three `foo` matches under
`unicodeCaseOps`. -/
theorem C6_line_order_and_nonoverlap_witness :
    List.Pairwise (fun a b : Parallels.Match =>
      a.line < b.line ∨ (a.line = b.line ∧
        a.start + Parallels.utf8Len
          (if ("foo".toList).any Parallels.unicodeCaseOps.isUpper
           then "foo".toList
           else Parallels.unicodeCaseOps.lowerStr "foo".toList)
          ≤ b.start))
      (Parallels.searchMatches Parallels.unicodeCaseOps "foo".toList
        ⟨[Parallels.OutputLine.raw .Stdout "foo bar foo baz foo".toList],
          100⟩) :=
  (C6_line_order_and_nonoverlap.1 Parallels.unicodeCaseOps "foo".toList
    ⟨[Parallels.OutputLine.raw .Stdout "foo bar foo baz foo".toList], 100⟩
    (by decide)).1

namespace Parallels

theorem modify_tab_get_self (tm : TabManager) (i : Nat) (f : Tab → Tab)
    (tab : Tab) (h : tm.tabs[i]? = some tab) :
    (tm.modify_tab i f).tabs[i]? = some (f tab) := by
  unfold TabManager.modify_tab
  rw [h]
  have hlt : i < tm.tabs.length := (List.getElem?_eq_some_iff.mp h).1
  simp [List.getElem?_set_self (by simpa using hlt)]

theorem modify_tab_get_other (tm : TabManager) (i j : Nat) (f : Tab → Tab)
    (hne : j ≠ i) :
    (tm.modify_tab i f).tabs[j]? = tm.tabs[j]? := by
  unfold TabManager.modify_tab
  cases h : tm.tabs[i]?
  · rfl
  · simp [List.getElem?_set_ne (fun he => hne he.symm)]

theorem spawn_iter_children_ne (res : SpawnOracle)
    (acc : App × List SysAction) (p : Nat × List Char) (i : Nat)
    (hne : p.1 ≠ i) :
    (App.spawn_iter res acc p).1.children i = acc.1.children i := by
  unfold App.spawn_iter
  cases res p.1
  · rfl
  · simp only []
    rw [if_neg (fun he => hne he.symm)]

theorem spawn_foldl_children_none (res : SpawnOracle) (i : Nat)
    {r : List Char} (hres : res i = .error r) :
    ∀ (ps : List (Nat × List Char)) (acc : App × List SysAction),
      acc.1.children i = none →
      (ps.foldl (App.spawn_iter res) acc).1.children i = none := by
  intro ps
  induction ps with
  | nil => intro acc h; exact h
  | cons p rest ih =>
    intro acc h
    rw [List.foldl_cons]
    apply ih
    by_cases hpi : p.1 = i
    · unfold App.spawn_iter
      rw [hpi, hres]
      exact h
    · rw [spawn_iter_children_ne res acc p i hpi]
      exact h

theorem mem_trace_foldl (res : SpawnOracle) (a : SysAction) :
    ∀ (ps : List (Nat × List Char)) (acc : App × List SysAction),
      a ∈ acc.2 → a ∈ (ps.foldl (App.spawn_iter res) acc).2 := by
  intro ps
  induction ps with
  | nil => intro acc h; exact h
  | cons p rest ih =>
    intro acc h
    rw [List.foldl_cons]
    apply ih
    unfold App.spawn_iter
    cases res p.1 <;> exact List.mem_append_left _ h

theorem spawn_foldl_sendFailed (res : SpawnOracle) (i : Nat)
    (r cmd : List Char) (hres : res i = .error r) :
    ∀ (ps : List (Nat × List Char)) (acc : App × List SysAction),
      (i, cmd) ∈ ps →
      SysAction.sendFailed i r ∈ (ps.foldl (App.spawn_iter res) acc).2 := by
  intro ps
  induction ps with
  | nil => intro acc h; simp at h
  | cons p rest ih =>
    intro acc hmem
    rw [List.foldl_cons]
    rcases List.mem_cons.mp hmem with heq | h'
    · apply mem_trace_foldl
      rw [← heq]
      unfold App.spawn_iter
      simp only [hres]
      simp
    · exact ih _ h'

end Parallels

/-- **C9.** A spawn failure for tab `i` emits `Failed{i, reason}` and
registers no handle for `i`; the Dispatcher turns that event into tab `i`'s
status `Failed{reason}` and touches nothing else (children map unchanged,
all other tabs unchanged).  Both operations are total functions of the
state — the failure never propagates as a program-level error. -/
theorem C9_spawn_failure_nonfatal (res : Parallels.SpawnOracle)
    (app : Parallels.App) (i : Nat) (r : List Char) :
    (res i = .error r → app.children i = none →
      (Parallels.App.spawn_commands res app).1.children i = none ∧
      (i < app.tab_manager.tabs.length →
        Parallels.SysAction.sendFailed i r
          ∈ (Parallels.App.spawn_commands res app).2)) ∧
    ((app.handle_app_event (.Failed i r)).children = app.children) ∧
    (∀ tab, app.tab_manager.tabs[i]? = some tab →
      (app.handle_app_event (.Failed i r)).tab_manager.tabs[i]?
        = some (tab.set_status (.Failed r))) ∧
    (∀ j, j ≠ i →
      (app.handle_app_event (.Failed i r)).tab_manager.tabs[j]?
        = app.tab_manager.tabs[j]?) := by
  refine ⟨?_, rfl, ?_, ?_⟩
  · intro hres hnone
    constructor
    · exact Parallels.spawn_foldl_children_none res i hres _ _ hnone
    · intro hlt
      obtain ⟨t, ht⟩ : ∃ t, app.tab_manager.tabs[i]? = some t :=
        ⟨_, List.getElem?_eq_getElem hlt⟩
      apply Parallels.spawn_foldl_sendFailed res i r t.command hres
      apply List.mk_mem_enum_iff_getElem?.mpr
      rw [List.getElem?_map, ht]
      rfl
  · intro tab htab
    exact Parallels.modify_tab_get_self app.tab_manager i _ tab htab
  · intro j hj
    exact Parallels.modify_tab_get_other app.tab_manager i j _ hj

/-- Witness for C9 at a concrete input: one tab whose spawn fails with
reason `boom` registers no handle and emits the `Failed` event. -/
theorem C9_spawn_failure_nonfatal_witness :
    (Parallels.App.spawn_commands (fun _ => .error "boom".toList)
      ⟨⟨[Parallels.Tab.new "cmd".toList 100], 0⟩, fun _ => none⟩).1.children 0
      = none ∧
    Parallels.SysAction.sendFailed 0 "boom".toList
      ∈ (Parallels.App.spawn_commands (fun _ => .error "boom".toList)
          ⟨⟨[Parallels.Tab.new "cmd".toList 100], 0⟩, fun _ => none⟩).2 :=
  have h := (C9_spawn_failure_nonfatal (fun _ => .error "boom".toList)
    ⟨⟨[Parallels.Tab.new "cmd".toList 100], 0⟩, fun _ => none⟩ 0
    "boom".toList).1 rfl rfl
  ⟨h.1, h.2 (by decide)⟩

/-- **C3.** After `restart_process(i)` the tab is reset — empty buffer,
status `Running`, both scroll offsets 0, auto-scroll on — and whenever an
old handle existed, its removal from tracking and the wait on its process
occur strictly before any insertion of a new handle for `i` in the
recorded effect order. -/
theorem C3_restart_resets_and_sequences (res : Parallels.SpawnOracle)
    (app : Parallels.App) (i : Nat) (tab : Parallels.Tab)
    (h : app.tab_manager.tabs[i]? = some tab) :
    ((Parallels.App.restart_process res app i).1.tab_manager.tabs[i]?
        = some tab.reset ∧
      tab.reset.buffer.lines = [] ∧
      tab.reset.status = .Running ∧
      tab.reset.scroll_offset = 0 ∧
      tab.reset.horizontal_scroll = 0 ∧
      tab.reset.auto_scroll = true) ∧
    (∀ hOld, app.children i = some hOld →
      ∀ k : Nat, (Parallels.App.restart_process res app i).2[k]?
          = some (Parallels.SysAction.insertHandle i) →
        ∃ k1 k2 : Nat, k1 < k ∧ k2 < k ∧
          (Parallels.App.restart_process res app i).2[k1]?
            = some (Parallels.SysAction.removeHandle i) ∧
          (Parallels.App.restart_process res app i).2[k2]?
            = some (Parallels.SysAction.wait hOld.pid)) := by
  have hreset := Parallels.modify_tab_get_self app.tab_manager i
    Parallels.Tab.reset tab h
  constructor
  · refine ⟨?_, rfl, rfl, rfl, rfl, rfl⟩
    unfold Parallels.App.restart_process
    cases hch : app.children i with
    | none =>
      cases hres : res i with
      | ok hnew => simp [hch, hres, hreset, h]
      | error e => simp [hch, hres, hreset, h]
    | some child =>
      cases hres : res i with
      | ok hnew => simp [hch, hres, hreset, h]
      | error e => simp [hch, hres, hreset, h]
  · intro hOld hch k hk
    cases hpid : hOld.pid with
    | some pid =>
      cases hres : res i with
      | ok hnew =>
        have htr : (Parallels.App.restart_process res app i).2
            = [.removeHandle i, .killpg pid, .wait (some pid), .resetTab i,
               .spawnCmd i tab.command, .insertHandle i] := by
          unfold Parallels.App.restart_process
          simp [hch, hpid, hres, hreset, h, Parallels.Tab.reset]
        rw [htr] at hk
        rcases k with _ | _ | _ | _ | _ | _ | k
        · simp at hk
        · simp at hk
        · simp at hk
        · simp at hk
        · simp at hk
        · exact ⟨0, 2, by omega, by omega, by simp [htr],
            by simp [htr]⟩
        · simp at hk
      | error e =>
        have htr : (Parallels.App.restart_process res app i).2
            = [.removeHandle i, .killpg pid, .wait (some pid), .resetTab i,
               .spawnCmd i tab.command, .sendFailed i e] := by
          unfold Parallels.App.restart_process
          simp [hch, hpid, hres, hreset, h, Parallels.Tab.reset]
        rw [htr] at hk
        rcases k with _ | _ | _ | _ | _ | _ | k <;> simp at hk
    | none =>
      cases hres : res i with
      | ok hnew =>
        have htr : (Parallels.App.restart_process res app i).2
            = [.removeHandle i, .wait none, .resetTab i,
               .spawnCmd i tab.command, .insertHandle i] := by
          unfold Parallels.App.restart_process
          simp [hch, hpid, hres, hreset, h, Parallels.Tab.reset]
        rw [htr] at hk
        rcases k with _ | _ | _ | _ | _ | k
        · simp at hk
        · simp at hk
        · simp at hk
        · simp at hk
        · exact ⟨0, 1, by omega, by omega, by simp [htr],
            by simp [htr]⟩
        · simp at hk
      | error e =>
        have htr : (Parallels.App.restart_process res app i).2
            = [.removeHandle i, .wait none, .resetTab i,
               .spawnCmd i tab.command, .sendFailed i e] := by
          unfold Parallels.App.restart_process
          simp [hch, hpid, hres, hreset, h, Parallels.Tab.reset]
        rw [htr] at hk
        rcases k with _ | _ | _ | _ | _ | k <;> simp at hk

/-- Witness for C3 at a concrete input: one tab running as pid 42, restart
spawns pid 43; the tab is reset and the removal/wait precede the insert. -/
theorem C3_restart_resets_and_sequences_witness :
    (Parallels.App.restart_process (fun _ => .ok ⟨some 43⟩)
        ⟨⟨[Parallels.Tab.new "cmd".toList 100], 0⟩,
          fun j => if j = 0 then some ⟨some 42⟩ else none⟩
        0).1.tab_manager.tabs[0]?
      = some (Parallels.Tab.new "cmd".toList 100).reset ∧
    ∃ k1 k2 : Nat, k1 < 5 ∧ k2 < 5 ∧
      (Parallels.App.restart_process (fun _ => .ok ⟨some 43⟩)
        ⟨⟨[Parallels.Tab.new "cmd".toList 100], 0⟩,
          fun j => if j = 0 then some ⟨some 42⟩ else none⟩ 0).2[k1]?
        = some (Parallels.SysAction.removeHandle 0) ∧
      (Parallels.App.restart_process (fun _ => .ok ⟨some 43⟩)
        ⟨⟨[Parallels.Tab.new "cmd".toList 100], 0⟩,
          fun j => if j = 0 then some ⟨some 42⟩ else none⟩ 0).2[k2]?
        = some (Parallels.SysAction.wait (Parallels.ProcHandle.mk (some 42)).pid) :=
  have happ := C3_restart_resets_and_sequences (fun _ => .ok ⟨some 43⟩)
    ⟨⟨[Parallels.Tab.new "cmd".toList 100], 0⟩,
      fun j => if j = 0 then some ⟨some 42⟩ else none⟩
    0 (Parallels.Tab.new "cmd".toList 100) rfl
  ⟨happ.1.1, happ.2 ⟨some 42⟩ rfl 5 (by decide)⟩

/-- **C2** (divergence). For every command, the `CommandRunner::spawn`
in `src/command/runner.rs` builds `sh -c "<command>"` with stdout and
stderr piped — but it issues no `.process_group(...)` call, so the child
is not placed in its own process group, and no `.stdin(...)` call, so
stdin is inherited rather than closed; the configuration therefore differs
from the one the spec (and the comment in `App::kill_all`,
`src/app.rs:118`) describes. -/
theorem C2_spawn_config_divergence (command : List Char) :
    (Parallels.commandRunnerSpawnConfig command).program = "sh".toList ∧
    (Parallels.commandRunnerSpawnConfig command).args
      = ["-c".toList, command] ∧
    (Parallels.commandRunnerSpawnConfig command).stdout = .piped ∧
    (Parallels.commandRunnerSpawnConfig command).stderr = .piped ∧
    (Parallels.commandRunnerSpawnConfig command).process_group = none ∧
    (Parallels.commandRunnerSpawnConfig command).stdin = .inherit ∧
    Parallels.specSpawnConfig command
      = { Parallels.commandRunnerSpawnConfig command with
          stdin := .null
          process_group := some 0 } := by
  exact ⟨rfl, rfl, rfl, rfl, rfl, rfl, rfl⟩

namespace Parallels

theorem takeBytes?_sound :
    ∀ (s : List Char) (n : Nat) (pre : List Char),
      Tab.takeBytes? s n = some pre → utf8Len pre = n ∧ pre <+: s := by
  intro s
  induction s with
  | nil =>
    intro n pre h
    cases n with
    | zero =>
      rw [Tab.takeBytes?] at h
      injection h with h
      subst h
      exact ⟨rfl, List.nil_prefix⟩
    | succ n => rw [Tab.takeBytes?] at h; cases h
  | cons c rest ih =>
    intro n pre h
    cases n with
    | zero =>
      rw [Tab.takeBytes?] at h
      injection h with h
      subst h
      exact ⟨rfl, List.nil_prefix⟩
    | succ n =>
      rw [Tab.takeBytes?] at h
      split at h
      case isTrue hle =>
        obtain ⟨pre', hpre', rfl⟩ := Option.map_eq_some'.mp h
        obtain ⟨hlen, hpref⟩ := ih (n + 1 - c.utf8Size) pre' hpre'
        refine ⟨?_, List.cons_prefix_cons.mpr ⟨rfl, hpref⟩⟩
        rw [utf8Len_cons, hlen]
        omega
      case isFalse hle => cases h

theorem takeBytes?_byteOfs :
    ∀ (s : List Char) (i : Nat), i ≤ s.length →
      Tab.takeBytes? s (byteOfs s i) = some (s.take i) := by
  intro s
  induction s with
  | nil =>
    intro i hi
    have : i = 0 := by simpa using hi
    subst this
    rfl
  | cons c rest ih =>
    intro i hi
    cases i with
    | zero => rfl
    | succ i =>
      rw [byteOfs_succ_cons]
      have hsz := Char.utf8Size_pos c
      obtain ⟨m, hm⟩ : ∃ m, c.utf8Size + byteOfs rest i = m + 1 :=
        ⟨c.utf8Size + byteOfs rest i - 1, by omega⟩
      rw [hm, Tab.takeBytes?, if_pos (by omega)]
      have hrw : m + 1 - c.utf8Size = byteOfs rest i := by omega
      rw [hrw, ih i (by simpa using hi)]
      rfl

end Parallels

/-- **C10 counterexample.** `Tab::display_name` does not return for every
command: for the 21-byte command of seven 3-byte characters `あ`, byte
index 20 falls inside the last character, and the byte slice
`&command[..20]` panics (modelled as `none`). -/
theorem C10_display_name_counterexample :
    (Parallels.Tab.new "あああああああ".toList 100).display_name
      = none := by
  decide

/-- **C10 (amended).** `Tab::display_name` returns the command unchanged
when it is at most 20 bytes; when it is longer it returns without
panicking exactly when byte index 20 is a codepoint boundary of the
command, in which case it returns the command's first 20 bytes followed
by `"..."`. -/
theorem C10_display_name_truncation (t : Parallels.Tab) :
    (Parallels.utf8Len t.command ≤ Parallels.MAX_TAB_NAME_LEN →
      t.display_name = some t.command) ∧
    (Parallels.utf8Len t.command > Parallels.MAX_TAB_NAME_LEN →
      (∀ pre, Parallels.Tab.takeBytes? t.command Parallels.MAX_TAB_NAME_LEN
          = some pre →
        t.display_name = some (pre ++ "...".toList) ∧
        Parallels.utf8Len pre = Parallels.MAX_TAB_NAME_LEN ∧
        pre <+: t.command) ∧
      (Parallels.IsUtf8Boundary t.command Parallels.MAX_TAB_NAME_LEN →
        (t.display_name).isSome = true) ∧
      ((t.display_name).isSome = true →
        Parallels.IsUtf8Boundary t.command Parallels.MAX_TAB_NAME_LEN)) := by
  constructor
  · intro hle
    unfold Parallels.Tab.display_name
    rw [if_pos hle]
  · intro hgt
    refine ⟨?_, ?_, ?_⟩
    · intro pre hpre
      obtain ⟨hlen, hpref⟩ := Parallels.takeBytes?_sound t.command
        Parallels.MAX_TAB_NAME_LEN pre hpre
      refine ⟨?_, hlen, hpref⟩
      unfold Parallels.Tab.display_name
      rw [if_neg (by omega), hpre]
      rfl
    · rintro ⟨i, hi, hb⟩
      unfold Parallels.Tab.display_name
      rw [if_neg (by omega), ← hb,
        Parallels.takeBytes?_byteOfs t.command i hi]
      rfl
    · intro hsome
      unfold Parallels.Tab.display_name at hsome
      rw [if_neg (by omega)] at hsome
      cases htb : Parallels.Tab.takeBytes? t.command
          Parallels.MAX_TAB_NAME_LEN with
      | none => rw [htb] at hsome; cases hsome
      | some pre =>
        obtain ⟨hlen, hpref⟩ := Parallels.takeBytes?_sound t.command
          Parallels.MAX_TAB_NAME_LEN pre htb
        refine ⟨pre.length, hpref.length_le, ?_⟩
        unfold Parallels.byteOfs
        rw [Parallels.take_eq_of_prefix hpref le_rfl, List.take_length]
        exact hlen

/-- Witness for C10 (amended) at the repo's own test input: the 41-byte
command truncates to its first 20 bytes plus `"..."`. -/
theorem C10_display_name_truncation_witness :
    (Parallels.Tab.new
      "cargo build --release --features foo bar".toList 100).display_name
      = some ("cargo build --releas".toList ++ "...".toList) ∧
    Parallels.utf8Len "cargo build --releas".toList
      = Parallels.MAX_TAB_NAME_LEN ∧
    "cargo build --releas".toList
      <+: (Parallels.Tab.new
        "cargo build --release --features foo bar".toList 100).command :=
  ((C10_display_name_truncation
    (Parallels.Tab.new
      "cargo build --release --features foo bar".toList 100)).2
    (by decide)).1 "cargo build --releas".toList (by decide)
